import Mathlib

/-!
Shallow embedding of the tonbo key/encoding/schema core
(`src/record/key/num.rs`, `src/record/key/primary.rs`,
`src/record/runtime/schema.rs`) and proofs about it.

Machine floats are represented by their bit patterns as `Nat` (a `b < 2 ^ 32`
resp. `b < 2 ^ 64` side condition marks representable values); byte streams are
`List Nat` of bytes.
-/

namespace Tonbo

/-- Little-endian byte string of the low `n` bytes of `x`, as produced by
`to_le_bytes` on an `n`-byte fixed-width value. -/
def leBytes : Nat → Nat → List Nat
  | 0, _ => []
  | n + 1, x => x % 256 :: leBytes n (x / 256)

/-- Reassemble a natural number from little-endian bytes, as `from_le_bytes`
does. -/
def fromLeBytes : List Nat → Nat
  | [] => 0
  | b :: bs => b + 256 * fromLeBytes bs

/-- Embedding of the numeric `cmp` on machine integers (`i32::cmp` /
`i64::cmp`): the order of the underlying mathematical integers. -/
def intCmp (a b : Int) : Ordering :=
  if a < b then .lt else if a = b then .eq else .gt

/-! ### Float keys (`FloatType<f32>` / `FloatType<f64>`, src/record/key/num.rs)

`implement_float_key!` defines `Ord` as `f32::total_cmp` / `f64::total_cmp`
(IEEE-754 totalOrder), `PartialEq` as `to_bits` equality, and `Hash` as writing
the little-endian bytes of the bit pattern.  `total_cmp` reinterprets the bit
pattern as a signed integer and, when the sign bit is set, xors the low 31
(resp. 63) bits; the resulting signed key is `b` for `b < 2 ^ 31` and
`2 ^ 31 - 1 - b` otherwise (resp. with 63/64). -/

/-- Signed sort key that `f32::total_cmp` compares: the bit pattern viewed as
`i32` with the low 31 bits flipped when the sign bit is set. -/
def f32TotalCmpKey (b : Nat) : Int :=
  if b < 2 ^ 31 then (b : Int) else 2 ^ 31 - 1 - (b : Int)

/-- Signed sort key that `f64::total_cmp` compares. -/
def f64TotalCmpKey (b : Nat) : Int :=
  if b < 2 ^ 63 then (b : Int) else 2 ^ 63 - 1 - (b : Int)

/-- `Ord::cmp` for `FloatType<f32>`: `self.0.total_cmp(&other.0)`. -/
def f32cmp (a b : Nat) : Ordering :=
  intCmp (f32TotalCmpKey a) (f32TotalCmpKey b)

/-- `Ord::cmp` for `FloatType<f64>`. -/
def f64cmp (a b : Nat) : Ordering :=
  intCmp (f64TotalCmpKey a) (f64TotalCmpKey b)

/-- `PartialEq::eq` for `FloatType<f32>`: `self.0.to_bits() == other.0.to_bits()`. -/
def f32eqBits (a b : Nat) : Bool := a == b

/-- `PartialEq::eq` for `FloatType<f64>`. -/
def f64eqBits (a b : Nat) : Bool := a == b

/-- `Hash::hash` for `FloatType<f32>` writes the little-endian bytes of the bit
pattern (`from_le_bytes ∘ to_le_bytes` is the identity on bit patterns). -/
def f32hashWrites (b : Nat) : List Nat := leBytes 4 b

/-- `Hash::hash` for `FloatType<f64>`. -/
def f64hashWrites (b : Nat) : List Nat := leBytes 8 b

/-- `Encode::encode` for `FloatType<f32>`: `writer.write_all(&self.to_le_bytes())`. -/
def f32encode (b : Nat) : List Nat := leBytes 4 b

/-- `Encode::size` for `FloatType<f32>`: `size_of::<Self>()`. -/
def f32size : Nat := 4

/-- `Decode::decode` for `FloatType<f32>`: read exactly 4 bytes, then
`f32::from_le_bytes`; fails when fewer than 4 bytes remain. -/
def f32decode (input : List Nat) : Option (Nat × List Nat) :=
  if 4 ≤ input.length then some (fromLeBytes (input.take 4), input.drop 4) else none

/-- `Encode::encode` for `FloatType<f64>`. -/
def f64encode (b : Nat) : List Nat := leBytes 8 b

/-- `Encode::size` for `FloatType<f64>`. -/
def f64size : Nat := 8

/-- `Decode::decode` for `FloatType<f64>`. -/
def f64decode (input : List Nat) : Option (Nat × List Nat) :=
  if 8 ≤ input.length then some (fromLeBytes (input.take 8), input.drop 8) else none

/-- Bit pattern of an `f32` NaN: exponent field all ones, non-zero mantissa. -/
def isNan32 (b : Nat) : Prop := b / 2 ^ 23 % 2 ^ 8 = 255 ∧ b % 2 ^ 23 ≠ 0

/-- Bit pattern of an `f64` NaN. -/
def isNan64 (b : Nat) : Prop := b / 2 ^ 52 % 2 ^ 11 = 2047 ∧ b % 2 ^ 52 ≠ 0

instance (b : Nat) : Decidable (isNan32 b) := by unfold isNan32; infer_instance

instance (b : Nat) : Decidable (isNan64 b) := by unfold isNan64; infer_instance

/-- Bit pattern of `+0.0_f32`. -/
def posZero32 : Nat := 0

/-- Bit pattern of `-0.0_f32`. -/
def negZero32 : Nat := 0x80000000

/-- Bit pattern of `f32::INFINITY`. -/
def posInf32 : Nat := 0x7F800000

/-- Bit pattern of `f32::NEG_INFINITY`. -/
def negInf32 : Nat := 0xFF800000

/-- Bit pattern of `+0.0_f64`. -/
def posZero64 : Nat := 0

/-- Bit pattern of `-0.0_f64`. -/
def negZero64 : Nat := 0x8000000000000000

/-- Bit pattern of `f64::INFINITY`. -/
def posInf64 : Nat := 0x7FF0000000000000

/-- Bit pattern of `f64::NEG_INFINITY`. -/
def negInf64 : Nat := 0xFFF0000000000000

/-! ### Basic lemmas about the byte helpers -/

theorem leBytes_length (n x : Nat) : (leBytes n x).length = n := by
  induction n generalizing x with
  | zero => rfl
  | succ n ih => simp [leBytes, ih]

theorem fromLeBytes_leBytes (n x : Nat) : fromLeBytes (leBytes n x) = x % 256 ^ n := by
  induction n generalizing x with
  | zero => simp [leBytes, fromLeBytes, Nat.mod_one]
  | succ n ih =>
    have hp : (256 : Nat) ^ (n + 1) = 256 * 256 ^ n := by ring
    rw [leBytes, fromLeBytes, ih, hp, Nat.mod_mul]

theorem take_append_length {α : Type} (l rest : List α) (n : Nat) (h : l.length = n) :
    (l ++ rest).take n = l := by
  subst h; simp

theorem drop_append_length {α : Type} (l rest : List α) (n : Nat) (h : l.length = n) :
    (l ++ rest).drop n = rest := by
  subst h; simp

theorem f32cmp_eq_gt_of_key_lt {a b : Nat}
    (h : f32TotalCmpKey b < f32TotalCmpKey a) : f32cmp a b = .gt := by
  unfold f32cmp intCmp
  split_ifs with h1 h2
  · omega
  · omega
  · rfl

theorem f32cmp_eq_lt_of_key_lt {a b : Nat}
    (h : f32TotalCmpKey a < f32TotalCmpKey b) : f32cmp a b = .lt := by
  unfold f32cmp intCmp
  split_ifs <;> first | rfl | omega

theorem f64cmp_eq_gt_of_key_lt {a b : Nat}
    (h : f64TotalCmpKey b < f64TotalCmpKey a) : f64cmp a b = .gt := by
  unfold f64cmp intCmp
  split_ifs with h1 h2
  · omega
  · omega
  · rfl

theorem f64cmp_eq_lt_of_key_lt {a b : Nat}
    (h : f64TotalCmpKey a < f64TotalCmpKey b) : f64cmp a b = .lt := by
  unfold f64cmp intCmp
  split_ifs <;> first | rfl | omega

theorem f32TotalCmpKey_inj {a b : Nat} (ha : a < 2 ^ 32) (hb : b < 2 ^ 32)
    (h : f32TotalCmpKey a = f32TotalCmpKey b) : a = b := by
  unfold f32TotalCmpKey at h
  split_ifs at h <;> omega

theorem f64TotalCmpKey_inj {a b : Nat} (ha : a < 2 ^ 64) (hb : b < 2 ^ 64)
    (h : f64TotalCmpKey a = f64TotalCmpKey b) : a = b := by
  unfold f64TotalCmpKey at h
  split_ifs at h <;> omega

/-- A positive-signed `f32` NaN bit pattern lies strictly above the positive
infinity pattern. -/
theorem isNan32_pos_gt_inf {b : Nat} (h : isNan32 b) (hs : b < 2 ^ 31) :
    posInf32 < b := by
  obtain ⟨he, hm⟩ := h
  unfold posInf32
  omega

/-- A negative-signed `f32` NaN bit pattern lies strictly above the negative
infinity pattern (hence below it under the flipped key). -/
theorem isNan32_neg_gt_negInf {b : Nat} (h : isNan32 b) (hs : 2 ^ 31 ≤ b)
    (hb : b < 2 ^ 32) : negInf32 < b := by
  obtain ⟨he, hm⟩ := h
  unfold negInf32
  omega

theorem isNan64_pos_gt_inf {b : Nat} (h : isNan64 b) (hs : b < 2 ^ 63) :
    posInf64 < b := by
  obtain ⟨he, hm⟩ := h
  unfold posInf64
  omega

theorem isNan64_neg_gt_negInf {b : Nat} (h : isNan64 b) (hs : 2 ^ 63 ≤ b)
    (hb : b < 2 ^ 64) : negInf64 < b := by
  obtain ⟨he, hm⟩ := h
  unfold negInf64
  omega

/-- C1: the `F32`/`F64` key ordering is the modified total order of the spec:
`cmp(+0.0, -0.0) = Greater` and the zeros are unequal; every bit pattern equals
itself (so NaNs of identical bits are equal); a positive-signed NaN compares
greater than positive infinity; a negative-signed NaN compares less than
negative infinity; positive and negative NaNs are unequal and ordered apart
(positive above); and on representable patterns `cmp` is `Equal` exactly on
equal bit patterns, equality decides bit-pattern identity, and every comparison
returns one of the three orderings (totality). -/
theorem float_total_order_spec :
    ((f32cmp posZero32 negZero32 = .gt ∧ f32eqBits posZero32 negZero32 = false) ∧
      (∀ b : Nat, f32cmp b b = .eq ∧ f32eqBits b b = true) ∧
      (∀ b : Nat, isNan32 b → b < 2 ^ 31 → f32cmp b posInf32 = .gt) ∧
      (∀ b : Nat, isNan32 b → 2 ^ 31 ≤ b → b < 2 ^ 32 → f32cmp b negInf32 = .lt) ∧
      (∀ a b : Nat, isNan32 a → a < 2 ^ 31 → isNan32 b → 2 ^ 31 ≤ b → b < 2 ^ 32 →
        f32eqBits a b = false ∧ f32cmp a b = .gt) ∧
      (∀ a b : Nat, a < 2 ^ 32 → b < 2 ^ 32 →
        ((f32cmp a b = .eq ↔ a = b) ∧ (f32eqBits a b = true ↔ a = b))) ∧
      (∀ a b : Nat, f32cmp a b = .lt ∨ f32cmp a b = .eq ∨ f32cmp a b = .gt)) ∧
    ((f64cmp posZero64 negZero64 = .gt ∧ f64eqBits posZero64 negZero64 = false) ∧
      (∀ b : Nat, f64cmp b b = .eq ∧ f64eqBits b b = true) ∧
      (∀ b : Nat, isNan64 b → b < 2 ^ 63 → f64cmp b posInf64 = .gt) ∧
      (∀ b : Nat, isNan64 b → 2 ^ 63 ≤ b → b < 2 ^ 64 → f64cmp b negInf64 = .lt) ∧
      (∀ a b : Nat, isNan64 a → a < 2 ^ 63 → isNan64 b → 2 ^ 63 ≤ b → b < 2 ^ 64 →
        f64eqBits a b = false ∧ f64cmp a b = .gt) ∧
      (∀ a b : Nat, a < 2 ^ 64 → b < 2 ^ 64 →
        ((f64cmp a b = .eq ↔ a = b) ∧ (f64eqBits a b = true ↔ a = b))) ∧
      (∀ a b : Nat, f64cmp a b = .lt ∨ f64cmp a b = .eq ∨ f64cmp a b = .gt)) := by
  constructor
  · refine ⟨⟨by decide, by decide⟩, ?_, ?_, ?_, ?_, ?_, ?_⟩
    · intro b
      constructor
      · unfold f32cmp intCmp; split_ifs <;> first | rfl | omega
      · simp [f32eqBits]
    · intro b hn hs
      apply f32cmp_eq_gt_of_key_lt
      have := isNan32_pos_gt_inf hn hs
      unfold f32TotalCmpKey posInf32 at *
      split_ifs <;> omega
    · intro b hn hs hb
      apply f32cmp_eq_lt_of_key_lt
      have := isNan32_neg_gt_negInf hn hs hb
      unfold f32TotalCmpKey negInf32 at *
      split_ifs <;> omega
    · intro a b hna hsa hnb hsb hb
      refine ⟨by simp [f32eqBits]; omega, ?_⟩
      apply f32cmp_eq_gt_of_key_lt
      unfold f32TotalCmpKey
      split_ifs <;> omega
    · intro a b ha hb
      constructor
      · constructor
        · intro h
          refine f32TotalCmpKey_inj ha hb ?_
          unfold f32cmp intCmp at h
          split_ifs at h <;> assumption
        · rintro rfl
          unfold f32cmp intCmp; split_ifs <;> first | rfl | omega
      · simp [f32eqBits]
    · intro a b
      cases h : f32cmp a b <;> simp [h]
  · refine ⟨⟨by decide, by decide⟩, ?_, ?_, ?_, ?_, ?_, ?_⟩
    · intro b
      constructor
      · unfold f64cmp intCmp; split_ifs <;> first | rfl | omega
      · simp [f64eqBits]
    · intro b hn hs
      apply f64cmp_eq_gt_of_key_lt
      have := isNan64_pos_gt_inf hn hs
      unfold f64TotalCmpKey posInf64 at *
      split_ifs <;> omega
    · intro b hn hs hb
      apply f64cmp_eq_lt_of_key_lt
      have := isNan64_neg_gt_negInf hn hs hb
      unfold f64TotalCmpKey negInf64 at *
      split_ifs <;> omega
    · intro a b hna hsa hnb hsb hb
      refine ⟨by simp [f64eqBits]; omega, ?_⟩
      apply f64cmp_eq_gt_of_key_lt
      unfold f64TotalCmpKey
      split_ifs <;> omega
    · intro a b ha hb
      constructor
      · constructor
        · intro h
          refine f64TotalCmpKey_inj ha hb ?_
          unfold f64cmp intCmp at h
          split_ifs at h <;> assumption
        · rintro rfl
          unfold f64cmp intCmp; split_ifs <;> first | rfl | omega
      · simp [f64eqBits]
    · intro a b
      cases h : f64cmp a b <;> simp [h]

/-- Witness for C1: the quiet positive `f32` NaN `0x7FC00000` compares greater
than positive infinity, and the quiet negative `f64` NaN `0xFFF8000000000000`
compares less than negative infinity. -/
theorem float_total_order_spec_witness :
    f32cmp 0x7FC00000 posInf32 = .gt ∧
      f64cmp 0xFFF8000000000000 negInf64 = .lt :=
  ⟨float_total_order_spec.1.2.2.1 0x7FC00000 (by decide) (by decide),
    float_total_order_spec.2.2.2.2.1 0xFFF8000000000000 (by decide) (by decide) (by decide)⟩

/-- C2: float key encoding round-trips through decoding for every representable
bit pattern (including NaNs, signed zeros and infinities), the encoding is
exactly the little-endian byte representation, and `size` equals the number of
bytes written (4 for `f32`, 8 for `f64`).  Decoding consumes exactly the
encoded bytes and leaves any trailing input untouched. -/
theorem float_encode_roundtrip :
    (∀ b : Nat, b < 2 ^ 32 → ∀ rest : List Nat,
      f32decode (f32encode b ++ rest) = some (b, rest) ∧
      f32encode b = [b % 256, b / 2 ^ 8 % 256, b / 2 ^ 16 % 256, b / 2 ^ 24 % 256] ∧
      f32size = (f32encode b).length ∧ f32size = 4) ∧
    (∀ b : Nat, b < 2 ^ 64 → ∀ rest : List Nat,
      f64decode (f64encode b ++ rest) = some (b, rest) ∧
      f64encode b = [b % 256, b / 2 ^ 8 % 256, b / 2 ^ 16 % 256, b / 2 ^ 24 % 256,
        b / 2 ^ 32 % 256, b / 2 ^ 40 % 256, b / 2 ^ 48 % 256, b / 2 ^ 56 % 256] ∧
      f64size = (f64encode b).length ∧ f64size = 8) := by
  constructor
  · intro b hb rest
    have hlen : (f32encode b).length = 4 := leBytes_length 4 b
    refine ⟨?_, ?_, by rw [hlen]; rfl, rfl⟩
    · unfold f32decode
      rw [if_pos (by simp [hlen]), take_append_length _ _ _ hlen,
        drop_append_length _ _ _ hlen]
      unfold f32encode
      rw [fromLeBytes_leBytes, Nat.mod_eq_of_lt (by norm_num at hb ⊢; omega)]
    · show leBytes 4 b = _
      simp [leBytes, Nat.div_div_eq_div_mul]
  · intro b hb rest
    have hlen : (f64encode b).length = 8 := leBytes_length 8 b
    refine ⟨?_, ?_, by rw [hlen]; rfl, rfl⟩
    · unfold f64decode
      rw [if_pos (by simp [hlen]), take_append_length _ _ _ hlen,
        drop_append_length _ _ _ hlen]
      unfold f64encode
      rw [fromLeBytes_leBytes, Nat.mod_eq_of_lt (by norm_num at hb ⊢; omega)]
    · show leBytes 8 b = _
      simp [leBytes, Nat.div_div_eq_div_mul]

/-- Witness for C2: the positive `f32` NaN pattern and the negative zero `f64`
pattern round-trip through encode/decode with trailing input preserved. -/
theorem float_encode_roundtrip_witness :
    f32decode (f32encode 0x7FC00000 ++ [7]) = some (0x7FC00000, [7]) ∧
      f64decode (f64encode 0x8000000000000000 ++ []) = some (0x8000000000000000, []) :=
  ⟨(float_encode_roundtrip.1 0x7FC00000 (by decide) [7]).1,
    (float_encode_roundtrip.2 0x8000000000000000 (by norm_num) []).1⟩

/-! ### Composite primary keys (`PrimaryKey`, src/record/key/primary.rs)

`PrimaryKey` wraps `Vec<Value>`.  `Ord::cmp` walks `zip` of the two vectors and
returns the first non-equal element ordering, else `Equal`; `PartialEq::eq`
walks `zip` and requires every paired position to be equal; `Hash::hash` hashes
the whole vector (`self.keys.hash(state)`, which writes the length followed by
every element). -/

/-- Modelled from the spec: the dynamic `Value` element type of `PrimaryKey`
(`src/record/runtime/value.rs` is not under src/).  Per the spec it is a tagged
union with one variant per logical type; integer and string variants suffice
for the claims here.  String payloads are their UTF-8 bytes, compared
lexicographically; variants of different tags are ordered by tag. -/
inductive Value where
  | int (i : Int)
  | str (s : List Nat)
deriving DecidableEq

/-- Comparison of machine naturals (byte values), numeric order. -/
def natCmp (a b : Nat) : Ordering :=
  if a < b then .lt else if a = b then .eq else .gt

/-- Modelled from the spec: byte-wise lexicographic comparison of string
payloads (Rust `String` ordering). -/
def strCmp : List Nat → List Nat → Ordering
  | [], [] => .eq
  | [], _ :: _ => .lt
  | _ :: _, [] => .gt
  | a :: as, b :: bs =>
    match natCmp a b with
    | .eq => strCmp as bs
    | o => o

/-- Modelled from the spec: total comparison of two dynamic values, tag first,
payload second. -/
def valueCmp : Value → Value → Ordering
  | .int a, .int b => intCmp a b
  | .int _, .str _ => .lt
  | .str _, .int _ => .gt
  | .str a, .str b => strCmp a b

/-- Modelled from the spec: structural equality of two dynamic values. -/
def valueEq : Value → Value → Bool
  | .int a, .int b => a == b
  | .str a, .str b => a == b
  | _, _ => false

/-- Modelled from the spec: the stream of words a dynamic value feeds to the
hasher (tag, then payload). -/
def valueHashWrites : Value → List Nat
  | .int i => [0, (i % (2 ^ 64 : Int)).toNat]
  | .str s => [1] ++ s ++ [255]

/-- `PrimaryKey` holds the ordered list of column values. -/
structure PrimaryKey where
  keys : List Value
deriving DecidableEq

/-- `PrimaryKey::new`. -/
def PrimaryKey.new (keys : List Value) : PrimaryKey := ⟨keys⟩

/-- `From<Value> for PrimaryKey`: an arity-1 key. -/
def PrimaryKey.ofValue (v : Value) : PrimaryKey := ⟨[v]⟩

/-- `Ord::cmp` for `PrimaryKey` on the key lists: iterate `zip`, return the
first non-equal ordering, else `Equal` (unequal lengths: the overlap decides). -/
def pkCmpKeys : List Value → List Value → Ordering
  | x :: xs, y :: ys =>
    match valueCmp x y with
    | .eq => pkCmpKeys xs ys
    | o => o
  | _, _ => .eq

/-- `PartialEq::eq` for `PrimaryKey` on the key lists: iterate `zip`, fail at
the first unequal pair, else succeed. -/
def pkEqKeys : List Value → List Value → Bool
  | x :: xs, y :: ys => valueEq x y && pkEqKeys xs ys
  | _, _ => true

/-- `Ord::cmp` for `PrimaryKey`. -/
def PrimaryKey.cmp (a b : PrimaryKey) : Ordering := pkCmpKeys a.keys b.keys

/-- `PartialEq::eq` for `PrimaryKey`. -/
def PrimaryKey.keyEq (a b : PrimaryKey) : Bool := pkEqKeys a.keys b.keys

/-- `Hash::hash` for `PrimaryKey`: `self.keys.hash(state)`, i.e. the vector
hash, which writes the length followed by each element's writes. -/
def PrimaryKey.hashWrites (a : PrimaryKey) : List Nat :=
  a.keys.length :: (a.keys.map valueHashWrites).join

/-! ### Order lemmas for the comparators -/

theorem intCmp_eq_lt {a b : Int} : intCmp a b = .lt ↔ a < b := by
  unfold intCmp; split_ifs <;> simp <;> omega

theorem intCmp_eq_eq {a b : Int} : intCmp a b = .eq ↔ a = b := by
  unfold intCmp; split_ifs <;> simp <;> omega

theorem intCmp_eq_gt {a b : Int} : intCmp a b = .gt ↔ b < a := by
  unfold intCmp; split_ifs <;> simp <;> omega

theorem natCmp_eq_lt {a b : Nat} : natCmp a b = .lt ↔ a < b := by
  unfold natCmp; split_ifs <;> simp <;> omega

theorem natCmp_eq_eq {a b : Nat} : natCmp a b = .eq ↔ a = b := by
  unfold natCmp; split_ifs <;> simp <;> omega

theorem natCmp_eq_gt {a b : Nat} : natCmp a b = .gt ↔ b < a := by
  unfold natCmp; split_ifs <;> simp <;> omega

theorem intCmp_swap (a b : Int) : intCmp b a = (intCmp a b).swap := by
  unfold intCmp; split_ifs <;> simp [Ordering.swap] <;> omega

theorem natCmp_swap (a b : Nat) : natCmp b a = (natCmp a b).swap := by
  unfold natCmp; split_ifs <;> simp [Ordering.swap] <;> omega

theorem strCmp_eq_eq : ∀ {s t : List Nat}, strCmp s t = .eq ↔ s = t := by
  intro s
  induction s with
  | nil => intro t; cases t <;> simp [strCmp]
  | cons a as ih =>
    intro t
    cases t with
    | nil => simp [strCmp]
    | cons b bs =>
      rcases h : natCmp a b with _ | _ | _
      · rw [natCmp_eq_lt] at h
        simp [strCmp, natCmp_eq_lt.mpr h]
        omega
      · rw [natCmp_eq_eq] at h
        subst h
        simp [strCmp, natCmp_eq_eq.mpr rfl, ih]
      · rw [natCmp_eq_gt] at h
        simp [strCmp, natCmp_eq_gt.mpr h]
        omega

theorem strCmp_swap : ∀ (s t : List Nat), strCmp t s = (strCmp s t).swap := by
  intro s
  induction s with
  | nil => intro t; cases t <;> rfl
  | cons a as ih =>
    intro t
    cases t with
    | nil => rfl
    | cons b bs =>
      simp only [strCmp, natCmp_swap b a]
      rcases h : natCmp b a with _ | _ | _ <;> simp [h, Ordering.swap, ih bs]

theorem strCmp_lt_trans :
    ∀ {s t u : List Nat}, strCmp s t = .lt → strCmp t u = .lt → strCmp s u = .lt := by
  intro s
  induction s with
  | nil =>
    intro t u h1 h2
    cases t with
    | nil => exact h2
    | cons b bs =>
      cases u with
      | nil => simp [strCmp] at h2
      | cons c cs => rfl
  | cons a as ih =>
    intro t u h1 h2
    cases t with
    | nil => simp [strCmp] at h1
    | cons b bs =>
      cases u with
      | nil => simp [strCmp] at h2
      | cons c cs =>
        simp only [strCmp] at h1 h2 ⊢
        rcases hab : natCmp a b with _ | _ | _ <;> rw [hab] at h1
        · rcases hbc : natCmp b c with _ | _ | _ <;> rw [hbc] at h2
          · have hac : natCmp a c = .lt :=
              natCmp_eq_lt.mpr ((natCmp_eq_lt.mp hab).trans (natCmp_eq_lt.mp hbc))
            rw [hac]
          · have hb := natCmp_eq_eq.mp hbc
            subst hb
            rw [hab]
          · exact absurd h2 (by simp)
        · have hb := natCmp_eq_eq.mp hab
          subst hb
          have h1x : strCmp as bs = .lt := h1
          rcases hbc : natCmp a c with _ | _ | _
          · rfl
          · rw [hbc] at h2
            exact ih h1x h2
          · rw [hbc] at h2
            simp at h2
        · exact absurd h1 (by simp)

theorem valueCmp_eq_eq : ∀ {x y : Value}, valueCmp x y = .eq ↔ x = y := by
  intro x y
  cases x <;> cases y <;> simp [valueCmp, intCmp_eq_eq, strCmp_eq_eq]

theorem valueCmp_refl (x : Value) : valueCmp x x = .eq := valueCmp_eq_eq.mpr rfl

theorem valueCmp_swap (x y : Value) : valueCmp y x = (valueCmp x y).swap := by
  cases x with
  | int a =>
    cases y with
    | int b => exact intCmp_swap a b
    | str b => rfl
  | str a =>
    cases y with
    | int b => rfl
    | str b => exact strCmp_swap a b

theorem valueCmp_lt_trans :
    ∀ {x y z : Value}, valueCmp x y = .lt → valueCmp y z = .lt → valueCmp x z = .lt := by
  intro x y z h1 h2
  rcases x with a | a <;> rcases y with b | b <;> rcases z with c | c
  · exact intCmp_eq_lt.mpr ((intCmp_eq_lt.mp h1).trans (intCmp_eq_lt.mp h2))
  · rfl
  · exact absurd h2 (by simp [valueCmp])
  · rfl
  · exact absurd h1 (by simp [valueCmp])
  · exact absurd h1 (by simp [valueCmp])
  · exact absurd h2 (by simp [valueCmp])
  · exact strCmp_lt_trans h1 h2

theorem valueEq_iff : ∀ {x y : Value}, valueEq x y = true ↔ x = y := by
  intro x y
  cases x <;> cases y <;> simp [valueEq]

theorem valueEq_comm (x y : Value) : valueEq x y = valueEq y x := by
  rcases x with a | a <;> rcases y with b | b
  · by_cases h : a = b
    · subst h; rfl
    · have h1 : (a == b) = false := beq_eq_false_iff_ne.mpr h
      have h2 : (b == a) = false := beq_eq_false_iff_ne.mpr (Ne.symm h)
      simp [valueEq, h1, h2]
  · rfl
  · rfl
  · by_cases h : a = b
    · subst h; rfl
    · have h1 : (a == b) = false := beq_eq_false_iff_ne.mpr h
      have h2 : (b == a) = false := beq_eq_false_iff_ne.mpr (Ne.symm h)
      simp [valueEq, h1, h2]

theorem pkEqKeys_refl : ∀ xs : List Value, pkEqKeys xs xs = true := by
  intro xs
  induction xs with
  | nil => rfl
  | cons x xs ih => simp [pkEqKeys, ih, valueEq_iff]

theorem pkEqKeys_symm : ∀ xs ys : List Value, pkEqKeys xs ys = pkEqKeys ys xs := by
  intro xs
  induction xs with
  | nil => intro ys; cases ys <;> rfl
  | cons x xs ih =>
    intro ys
    cases ys with
    | nil => rfl
    | cons y ys => simp only [pkEqKeys, ih ys, valueEq_comm x y]

theorem pkEqKeys_iff_of_length :
    ∀ {xs ys : List Value}, xs.length = ys.length → (pkEqKeys xs ys = true ↔ xs = ys) := by
  intro xs
  induction xs with
  | nil =>
    intro ys h
    cases ys with
    | nil => simp [pkEqKeys]
    | cons y ys => simp at h
  | cons x xs ih =>
    intro ys h
    cases ys with
    | nil => simp at h
    | cons y ys =>
      simp only [List.length_cons] at h
      simp only [pkEqKeys, Bool.and_eq_true, valueEq_iff, List.cons.injEq]
      rw [@ih ys (by omega)]

theorem pkCmpKeys_eq_iff :
    ∀ {xs ys : List Value}, pkCmpKeys xs ys = .eq ↔ pkEqKeys xs ys = true := by
  intro xs
  induction xs with
  | nil => intro ys; cases ys <;> simp [pkCmpKeys, pkEqKeys]
  | cons x xs ih =>
    intro ys
    cases ys with
    | nil => simp [pkCmpKeys, pkEqKeys]
    | cons y ys =>
      simp only [pkCmpKeys, pkEqKeys, Bool.and_eq_true]
      rcases h : valueCmp x y with _ | _ | _
      · refine iff_of_false (by simp) ?_
        rintro ⟨h1, h2⟩
        rw [valueEq_iff.mp h1] at h
        rw [valueCmp_refl] at h
        simp at h
      · have hxy := valueCmp_eq_eq.mp h
        simp [valueEq_iff.mpr hxy, ih]
      · refine iff_of_false (by simp) ?_
        rintro ⟨h1, h2⟩
        rw [valueEq_iff.mp h1] at h
        rw [valueCmp_refl] at h
        simp at h

theorem pkCmpKeys_swap : ∀ xs ys : List Value, pkCmpKeys ys xs = (pkCmpKeys xs ys).swap := by
  intro xs
  induction xs with
  | nil => intro ys; cases ys <;> rfl
  | cons x xs ih =>
    intro ys
    cases ys with
    | nil => rfl
    | cons y ys =>
      simp only [pkCmpKeys, valueCmp_swap x y]
      rcases h : valueCmp x y with _ | _ | _
      · rfl
      · exact ih ys
      · rfl

theorem pkCmpKeys_lt_trans :
    ∀ {xs ys zs : List Value},
      pkCmpKeys xs ys = .lt → pkCmpKeys ys zs = .lt → pkCmpKeys xs zs = .lt := by
  intro xs
  induction xs with
  | nil =>
    intro ys zs h1 h2
    cases ys <;> simp [pkCmpKeys] at h1
  | cons x xs ih =>
    intro ys zs h1 h2
    cases ys with
    | nil => simp [pkCmpKeys] at h1
    | cons y ys =>
      cases zs with
      | nil => simp [pkCmpKeys] at h2
      | cons z zs =>
        simp only [pkCmpKeys] at h1 h2 ⊢
        rcases hxy : valueCmp x y with _ | _ | _ <;> rw [hxy] at h1
        · rcases hyz : valueCmp y z with _ | _ | _ <;> rw [hyz] at h2
          · rw [show valueCmp x z = .lt from valueCmp_lt_trans hxy hyz]
          · have hz := valueCmp_eq_eq.mp hyz
            subst hz
            rw [hxy]
          · exact absurd h2 (by simp)
        · have hy := valueCmp_eq_eq.mp hxy
          subst hy
          have h1x : pkCmpKeys xs ys = .lt := h1
          rcases hyz : valueCmp x z with _ | _ | _
          · rfl
          · rw [hyz] at h2
            exact ih h1x h2
          · rw [hyz] at h2
            simp at h2
        · exact absurd h1 (by simp)

theorem pkCmpKeys_first_diff :
    ∀ (pre xs ys : List Value) (x y : Value), valueCmp x y ≠ .eq →
      pkCmpKeys (pre ++ x :: xs) (pre ++ y :: ys) = valueCmp x y := by
  intro pre
  induction pre with
  | nil =>
    intro xs ys x y h
    simp only [List.nil_append, pkCmpKeys]
    all_goals rcases hv : valueCmp x y with _ | _ | _ <;> first | rfl | exact absurd hv h
  | cons p pre ih =>
    intro xs ys x y h
    simp only [List.cons_append, pkCmpKeys, valueCmp_refl p]
    exact ih xs ys x y h

theorem pkCmpKeys_prefix_eq : ∀ xs rest : List Value, pkCmpKeys xs (xs ++ rest) = .eq := by
  intro xs
  induction xs with
  | nil => intro rest; cases rest <;> rfl
  | cons x xs ih =>
    intro rest
    simp only [List.cons_append, pkCmpKeys, valueCmp_refl x]
    exact ih rest

/-- C4: `PrimaryKey` comparison is lexicographic with prefix semantics: paired
positions are scanned in order and the first position with unequal values
decides; if all paired positions are equal the result is `Equal`; a key that is
a proper prefix of another compares `Equal` to it; and concretely
`A = [1, "x"] < B = [1, "y"] < C = [2, "a"]` while `A` compared with `[1]` is
`Equal` (string payloads are their UTF-8 bytes: `"x" = [120]`, `"y" = [121]`,
`"a" = [97]`). -/
theorem primary_key_cmp_lexicographic_prefix :
    (∀ (pre xs ys : List Value) (x y : Value), valueCmp x y ≠ .eq →
      (PrimaryKey.new (pre ++ x :: xs)).cmp (PrimaryKey.new (pre ++ y :: ys)) = valueCmp x y) ∧
    (∀ xs ys : List Value, pkEqKeys xs ys = true →
      (PrimaryKey.new xs).cmp (PrimaryKey.new ys) = .eq) ∧
    (∀ xs rest : List Value,
      (PrimaryKey.new xs).cmp (PrimaryKey.new (xs ++ rest)) = .eq) ∧
    ((PrimaryKey.new [.int 1, .str [120]]).cmp (PrimaryKey.new [.int 1, .str [121]]) = .lt ∧
      (PrimaryKey.new [.int 1, .str [121]]).cmp (PrimaryKey.new [.int 2, .str [97]]) = .lt ∧
      (PrimaryKey.new [.int 1, .str [120]]).cmp (PrimaryKey.new [.int 2, .str [97]]) = .lt ∧
      (PrimaryKey.new [.int 1, .str [120]]).cmp (PrimaryKey.new [.int 1]) = .eq) := by
  refine ⟨?_, ?_, ?_, by decide, by decide, by decide, by decide⟩
  · intro pre xs ys x y h
    exact pkCmpKeys_first_diff pre xs ys x y h
  · intro xs ys h
    exact pkCmpKeys_eq_iff.mpr h
  · intro xs rest
    exact pkCmpKeys_prefix_eq xs rest

/-- Witness for C4: the first differing position decides for the concrete
arity-1 keys `[7]` and `[9]`. -/
theorem primary_key_cmp_lexicographic_prefix_witness :
    (PrimaryKey.new [Value.int 7]).cmp (PrimaryKey.new [Value.int 9]) =
      valueCmp (Value.int 7) (Value.int 9) :=
  primary_key_cmp_lexicographic_prefix.1 [] [] [] (Value.int 7) (Value.int 9) (by decide)

/-- C5 fails as stated: `PrimaryKey` equality is prefix equality, and it is not
transitive across arities, hence not an equivalence relation.  Concretely
`[1, 5] == [1]` and `[1] == [1, 6]` but `[1, 5] != [1, 6]`. -/
theorem primary_key_eq_not_transitive_counterexample :
    (PrimaryKey.new [Value.int 1, Value.int 5]).keyEq (PrimaryKey.new [Value.int 1]) = true ∧
      (PrimaryKey.new [Value.int 1]).keyEq
        (PrimaryKey.new [Value.int 1, Value.int 6]) = true ∧
      (PrimaryKey.new [Value.int 1, Value.int 5]).keyEq
        (PrimaryKey.new [Value.int 1, Value.int 6]) = false := by
  decide

/-- C5 amended: `cmp(a, b) = Equal ↔ a == b` holds for all pairs, equality is
reflexive and symmetric, the order is antisymmetric (swap) and transitive for
all pairs; but equality is an equivalence relation (in particular transitive)
only when restricted to keys of equal arity, where it coincides with structural
equality. -/
theorem primary_key_order_spec_amended :
    (∀ a b : PrimaryKey, a.cmp b = .eq ↔ a.keyEq b = true) ∧
    (∀ a : PrimaryKey, a.keyEq a = true) ∧
    (∀ a b : PrimaryKey, a.keyEq b = b.keyEq a) ∧
    (∀ a b c : PrimaryKey, a.keys.length = b.keys.length → b.keys.length = c.keys.length →
      a.keyEq b = true → b.keyEq c = true → a.keyEq c = true) ∧
    (∀ a b : PrimaryKey, a.keys.length = b.keys.length → (a.keyEq b = true ↔ a = b)) ∧
    (∀ a b : PrimaryKey, b.cmp a = (a.cmp b).swap) ∧
    (∀ a b c : PrimaryKey, a.cmp b = .lt → b.cmp c = .lt → a.cmp c = .lt) := by
  refine ⟨?_, ?_, ?_, ?_, ?_, ?_, ?_⟩
  · intro a b
    exact pkCmpKeys_eq_iff
  · intro a
    exact pkEqKeys_refl a.keys
  · intro a b
    exact pkEqKeys_symm a.keys b.keys
  · intro a b c h1 h2 e1 e2
    have x1 := (pkEqKeys_iff_of_length h1).mp e1
    have x2 := (pkEqKeys_iff_of_length h2).mp e2
    unfold PrimaryKey.keyEq
    rw [x1.trans x2]
    exact pkEqKeys_refl c.keys
  · intro a b h
    rw [show (a.keyEq b = true) = (pkEqKeys a.keys b.keys = true) from rfl,
      pkEqKeys_iff_of_length h]
    exact ⟨fun he => by cases a; cases b; simp_all, fun he => by rw [he]⟩
  · intro a b
    exact pkCmpKeys_swap a.keys b.keys
  · intro a b c h1 h2
    exact pkCmpKeys_lt_trans h1 h2

/-- Witness for C5 (amended): equal-arity transitivity applied at concrete
keys. -/
theorem primary_key_order_spec_amended_witness :
    (PrimaryKey.new [Value.int 3]).keyEq (PrimaryKey.new [Value.int 3]) = true :=
  primary_key_order_spec_amended.2.2.2.1 (PrimaryKey.new [Value.int 3])
    (PrimaryKey.new [Value.int 3]) (PrimaryKey.new [Value.int 3]) rfl rfl
    (by decide) (by decide)

/-- C3 amended: hash is consistent with equality for the float keys on every
pair (the hash is bit-pattern based, so NaN and signed-zero cases are covered),
and for `PrimaryKey` on every pair of equal arity; unequal-arity pairs that
compare equal under prefix equality are excluded (see the counterexample). -/
theorem hash_consistent_with_equality :
    (∀ a b : Nat, f32eqBits a b = true → f32hashWrites a = f32hashWrites b) ∧
    (∀ a b : Nat, f64eqBits a b = true → f64hashWrites a = f64hashWrites b) ∧
    (∀ a b : PrimaryKey, a.keys.length = b.keys.length → a.keyEq b = true →
      a.hashWrites = b.hashWrites) := by
  refine ⟨?_, ?_, ?_⟩
  · intro a b h
    rw [show a = b from by simpa [f32eqBits] using h]
  · intro a b h
    rw [show a = b from by simpa [f64eqBits] using h]
  · intro a b hl he
    unfold PrimaryKey.hashWrites
    rw [(pkEqKeys_iff_of_length hl).mp he]

/-- Witness for C3 (amended): the float part applied at the `f32` NaN pattern
and the key part applied at concrete equal keys. -/
theorem hash_consistent_with_equality_witness :
    f32hashWrites 0x7FC00000 = f32hashWrites 0x7FC00000 ∧
      (PrimaryKey.new [Value.str [120]]).hashWrites =
        (PrimaryKey.new [Value.str [120]]).hashWrites :=
  ⟨hash_consistent_with_equality.1 0x7FC00000 0x7FC00000 (by decide),
    hash_consistent_with_equality.2.2 (PrimaryKey.new [Value.str [120]])
      (PrimaryKey.new [Value.str [120]]) rfl (by decide)⟩

/-- C3 fails as stated on unequal-arity pairs: `[1]` and `[1, 2]` compare equal
under prefix equality, but the vector hash writes the length and every element,
so the two keys feed different streams to the hasher. -/
theorem hash_equality_counterexample :
    (PrimaryKey.new [Value.int 1]).keyEq (PrimaryKey.new [Value.int 1, Value.int 2]) = true ∧
      (PrimaryKey.new [Value.int 1]).hashWrites ≠
        (PrimaryKey.new [Value.int 1, Value.int 2]).hashWrites := by
  constructor
  · decide
  · decide

/-! ### Timestamp keys (`TimestampType<const UNIT: u8>`, src/record/key/num.rs)

The unit discriminant is a type-level tag; the payload is an `i64`.  Encoding
delegates to the inner `i64` for every unit (`self.0.encode(writer)`), decoding
reads an `i64` and wraps it, and `size` is the `i64` size. -/

/-- `TimestampType<UNIT>`: unit-tagged wrapper around an `i64` count of units
since epoch.  The tag `UNIT` lives at the type level, as in the source. -/
structure TimestampType (UNIT : Nat) where
  value : Int
deriving DecidableEq

/-- Modelled from the spec: `i64::encode` of the encoding contract (the fusio
crates are external): the little-endian two's-complement bytes of the value. -/
def i64encode (v : Int) : List Nat := leBytes 8 (v % (2 ^ 64 : Int)).toNat

/-- Modelled from the spec: `i64::size`, 8 bytes. -/
def i64size : Nat := 8

/-- Two's-complement reading of a 64-bit pattern. -/
def intFromBits (n : Nat) : Int :=
  if n < 2 ^ 63 then (n : Int) else (n : Int) - 2 ^ 64

/-- Modelled from the spec: `i64::decode`, reading exactly 8 little-endian
bytes. -/
def i64decode (input : List Nat) : Option (Int × List Nat) :=
  if 8 ≤ input.length then some (intFromBits (fromLeBytes (input.take 8)), input.drop 8)
  else none

/-- `Encode::encode` for `TimestampType<UNIT>`: `self.0.encode(writer)`,
identical for every unit. -/
def TimestampType.encode {u : Nat} (t : TimestampType u) : List Nat :=
  i64encode t.value

/-- `Encode::size` for `TimestampType<UNIT>`: `self.0.size()`. -/
def TimestampType.size {u : Nat} (t : TimestampType u) : Nat := i64size

/-- `Decode::decode` for `TimestampType<UNIT>`: decode an `i64`, wrap it. -/
def TimestampType.decode (u : Nat) (input : List Nat) :
    Option (TimestampType u × List Nat) :=
  (i64decode input).map (fun p => (⟨p.1⟩, p.2))

/-- Derived `Ord::cmp` for `TimestampType<UNIT>`: numeric order of the inner
`i64`; only defined between equal units (the tag is part of the type). -/
def TimestampType.cmp {u : Nat} (a b : TimestampType u) : Ordering :=
  intCmp a.value b.value

theorem i64_roundtrip (v : Int) (h1 : -2 ^ 63 ≤ v) (h2 : v < 2 ^ 63)
    (rest : List Nat) : i64decode (i64encode v ++ rest) = some (v, rest) := by
  have hlen : (i64encode v).length = 8 := leBytes_length 8 _
  unfold i64decode
  rw [if_pos (by simp [hlen]), take_append_length _ _ _ hlen,
    drop_append_length _ _ _ hlen]
  unfold i64encode
  rw [fromLeBytes_leBytes]
  have h256 : (256 : Nat) ^ 8 = 2 ^ 64 := by norm_num
  rw [h256]
  have hv : intFromBits ((v % (2 ^ 64 : Int)).toNat % 2 ^ 64) = v := by
    unfold intFromBits
    split_ifs <;> omega
  rw [hv]

/-- C9: for every unit discriminant and every representable `i64` value, the
timestamp key encodes as the 64-bit signed integer layout (the same bytes for
every unit), `size` equals the `i64` encoded size and the number of bytes
written, decoding the encoding returns the identical timestamp; and timestamps
of different unit discriminants are distinct key types (as tagged values they
are unequal even with identical payloads). -/
theorem timestamp_encode_roundtrip :
    (∀ (u : Nat) (v : Int), -2 ^ 63 ≤ v → v < 2 ^ 63 → ∀ rest : List Nat,
      TimestampType.decode u (TimestampType.encode (⟨v⟩ : TimestampType u) ++ rest) =
        some ((⟨v⟩ : TimestampType u), rest) ∧
      TimestampType.size (⟨v⟩ : TimestampType u) =
        (TimestampType.encode (⟨v⟩ : TimestampType u)).length ∧
      TimestampType.size (⟨v⟩ : TimestampType u) = i64size) ∧
    (∀ (u1 u2 : Nat) (v : Int),
      TimestampType.encode (⟨v⟩ : TimestampType u1) =
        TimestampType.encode (⟨v⟩ : TimestampType u2)) ∧
    ((⟨1, ⟨1000⟩⟩ : Σ u, TimestampType u) ≠ (⟨2, ⟨1000⟩⟩ : Σ u, TimestampType u)) := by
  refine ⟨?_, ?_, ?_⟩
  · intro u v h1 h2 rest
    refine ⟨?_, ?_, rfl⟩
    · unfold TimestampType.decode TimestampType.encode
      rw [i64_roundtrip v h1 h2 rest]
      rfl
    · unfold TimestampType.size TimestampType.encode i64encode i64size
      rw [leBytes_length]
  · intro u1 u2 v
    rfl
  · intro h
    exact absurd (congrArg Sigma.fst h) (by decide)

/-- Witness for C9: the millisecond-unit timestamp `1000` round-trips. -/
theorem timestamp_encode_roundtrip_witness :
    TimestampType.decode 1 (TimestampType.encode (⟨1000⟩ : TimestampType 1) ++ []) =
      some ((⟨1000⟩ : TimestampType 1), []) :=
  (timestamp_encode_roundtrip.1 1 1000 (by norm_num) (by norm_num) []).1

/-! ### Dynamic schema (`DynSchema`, src/record/runtime/schema.rs)

`DynSchema::new` stores the declared columns and primary indices unchanged and
builds an arrow schema whose fields are the reserved `_null` boolean column,
the reserved `magic::TS` unsigned 32-bit sequence column, then the declared
columns; the metadata maps `"primary_key_index"` to the comma-joined declared
indices.  `primary_key_index` shifts each declared index by 2;
`primary_key_path` emits the sequence column (index 1, descending, nulls-first)
followed by each primary-key column (declared index + 2, ascending,
nulls-first), indexing `self.schema[*idx]` without a bounds check. -/

/-- Modelled from the spec: the logical column data types of the runtime value
module (not under src/).  The reserved columns use `boolean` and `uint32`. -/
inductive DataType where
  | boolean
  | uint32
  | int32
  | int64
  | uint64
  | string
  | float32
  | float64
deriving DecidableEq

/-- Modelled from the spec: the column descriptor `ValueDesc`
`{name, logical type, nullable}` (not under src/). -/
structure ValueDesc where
  name : String
  datatype : DataType
  nullable : Bool
deriving DecidableEq

/-- An arrow field: name, data type and nullability. -/
structure Field where
  name : String
  datatype : DataType
  nullable : Bool
deriving DecidableEq

/-- Modelled from the spec: `ValueDesc::arrow_field` (not under src/) maps the
descriptor to the arrow field of the same name, type and nullability. -/
def ValueDesc.arrow_field (desc : ValueDesc) : Field :=
  ⟨desc.name, desc.datatype, desc.nullable⟩

/-- Modelled from the spec: the name of the reserved sequence column
(`magic::TS`; the magic module is not under src/). -/
def magicTS : String := "_ts"

/-- An arrow schema: ordered fields plus string-keyed metadata. -/
structure ArrowSchemaM where
  fields : List Field
  metadata : List (String × String)
deriving DecidableEq

/-- `parquet::format::SortingColumn`: physical column index, descending flag,
nulls-first flag, in the argument order of `SortingColumn::new`. -/
structure SortingColumn where
  column_idx : Int
  descending : Bool
  nulls_first : Bool
deriving DecidableEq

/-- `DynSchema`: declared columns, declared primary indices, derived arrow
schema. -/
structure DynSchema where
  schema : List ValueDesc
  primary_index : List Nat
  arrow_schema : ArrowSchemaM
deriving DecidableEq

/-- `DynSchema::new`. -/
def DynSchema.new (schema : List ValueDesc) (primary_index : List Nat) : DynSchema :=
  { schema := schema
    primary_index := primary_index
    arrow_schema :=
      { fields := Field.mk "_null" .boolean false :: Field.mk magicTS .uint32 false ::
          schema.map ValueDesc.arrow_field
        metadata := [("primary_key_index",
          String.intercalate "," (primary_index.map (fun v => toString v)))] } }

/-- `Schema::primary_key_index` for `DynSchema`: each declared index shifted by
the 2 reserved leading columns. -/
def DynSchema.primary_key_index (s : DynSchema) : List Nat :=
  s.primary_index.map (fun idx => idx + 2)

/-- The loop of `primary_key_path` over the declared primary indices:
`self.schema[*idx]` panics when out of bounds (modelled as `none`), else pushes
the column name and `SortingColumn::new(idx + 2, false, true)`. -/
def pkPathCols (schema : List ValueDesc) :
    List Nat → Option (List String × List SortingColumn)
  | [] => some ([], [])
  | idx :: rest =>
    match schema[idx]? with
    | none => none
    | some desc =>
      match pkPathCols schema rest with
      | none => none
      | some (ps, cs) =>
        some (desc.name :: ps, SortingColumn.mk ((idx : Int) + 2) false true :: cs)

/-- `Schema::primary_key_path` for `DynSchema`: the sequence column
(`SortingColumn::new(1, true, true)`) followed by the primary-key columns. -/
def DynSchema.primary_key_path (s : DynSchema) :
    Option (List String × List SortingColumn) :=
  match pkPathCols s.schema s.primary_index with
  | none => none
  | some (ps, cs) =>
    some (magicTS :: ps, SortingColumn.mk 1 true true :: cs)

/-- Default descriptor used only to express list indexing totally in
statements. -/
def defaultDesc : ValueDesc := ⟨"", DataType.boolean, false⟩

theorem pkPathCols_eq (cols : List ValueDesc) :
    ∀ pidx : List Nat, (∀ i ∈ pidx, i < cols.length) →
      pkPathCols cols pidx =
        some (pidx.map (fun i => (cols.getD i defaultDesc).name),
          pidx.map (fun i => SortingColumn.mk ((i : Int) + 2) false true)) := by
  intro pidx
  induction pidx with
  | nil => intro h; rfl
  | cons i rest ih =>
    intro h
    have hi : i < cols.length := h i (by simp)
    have hrest : ∀ j ∈ rest, j < cols.length := fun j hj => h j (by simp [hj])
    simp only [pkPathCols, List.getElem?_eq_getElem hi, ih hrest, List.map_cons]
    simp [List.getD, List.getElem?_eq_getElem hi]

/-- C6: `primary_key_index` returns exactly the caller-declared primary-key
positions, each shifted upward by 2 (the reserved leading columns), in declared
order; a schema declared with `primary_index = [0]` yields `[2]`. -/
theorem primary_key_index_shifted :
    (∀ (cols : List ValueDesc) (pidx : List Nat),
      (DynSchema.new cols pidx).primary_key_index = pidx.map (fun idx => idx + 2)) ∧
    (DynSchema.new [⟨"foo", .string, false⟩, ⟨"bar", .int32, true⟩]
      [0]).primary_key_index = [2] := by
  exact ⟨fun cols pidx => rfl, rfl⟩

/-- C7 amended: for every schema whose primary indices are in bounds, the sort
spec begins with the reserved sequence column at physical position 1 sorted
descending, followed by each primary-key column at its shifted position
(declared index + 2) sorted ascending, and the path list names the sequence
column then each primary-key column; but every entry is emitted nulls-FIRST
(`SortingColumn::new(_, _, true)`), not nulls-last as claimed. -/
theorem primary_key_path_spec_amended :
    ∀ (cols : List ValueDesc) (pidx : List Nat), (∀ i ∈ pidx, i < cols.length) →
      (DynSchema.new cols pidx).primary_key_path =
        some (magicTS :: pidx.map (fun i => (cols.getD i defaultDesc).name),
          SortingColumn.mk 1 true true ::
            pidx.map (fun i => SortingColumn.mk ((i : Int) + 2) false true)) := by
  intro cols pidx h
  unfold DynSchema.primary_key_path
  rw [show (DynSchema.new cols pidx).schema = cols from rfl,
    show (DynSchema.new cols pidx).primary_index = pidx from rfl,
    pkPathCols_eq cols pidx h]

/-- Witness for C7 (amended): the concrete one-column schema with
`primary_index = [0]`. -/
theorem primary_key_path_spec_amended_witness :
    (DynSchema.new [⟨"foo", .string, false⟩] [0]).primary_key_path =
      some ([magicTS, "foo"],
        [SortingColumn.mk 1 true true, SortingColumn.mk 2 false true]) := by
  simpa using
    primary_key_path_spec_amended [⟨"foo", .string, false⟩] [0] (by simp)

/-- C7 fails as stated on the nulls direction: the code passes
`nulls_first = true` to every `SortingColumn::new` call, so the concrete
schema's sort spec carries nulls-first entries and differs from the nulls-last
spec the claim predicts. -/
theorem primary_key_path_nulls_counterexample :
    (DynSchema.new [⟨"foo", .string, false⟩] [0]).primary_key_path =
      some ([magicTS, "foo"],
        [SortingColumn.mk 1 true true, SortingColumn.mk 2 false true]) ∧
    (DynSchema.new [⟨"foo", .string, false⟩] [0]).primary_key_path ≠
      some ([magicTS, "foo"],
        [SortingColumn.mk 1 true false, SortingColumn.mk 2 false false]) := by
  constructor
  · rfl
  · decide

/-- C8: the derived arrow schema's physical column order is the boolean
deletion marker, the unsigned 32-bit sequence column, then the declared columns
in order; the metadata records the declared (pre-shift) primary positions
comma-joined under the fixed key; concretely `[0, 2]` serializes to `"0,2"` and
one declared column yields three physical columns. -/
theorem dyn_schema_layout :
    (∀ (cols : List ValueDesc) (pidx : List Nat),
      (DynSchema.new cols pidx).arrow_schema.fields =
        Field.mk "_null" .boolean false :: Field.mk magicTS .uint32 false ::
          cols.map ValueDesc.arrow_field ∧
      (DynSchema.new cols pidx).arrow_schema.metadata =
        [("primary_key_index",
          String.intercalate "," (pidx.map (fun v => toString v)))]) ∧
    (DynSchema.new
      [⟨"foo", .string, false⟩, ⟨"bar", .int32, true⟩, ⟨"baz", .uint64, true⟩]
      [0, 2]).arrow_schema.metadata = [("primary_key_index", "0,2")] ∧
    (DynSchema.new [⟨"foo", .string, false⟩] []).arrow_schema.fields.length = 3 := by
  refine ⟨fun cols pidx => ⟨rfl, rfl⟩, by decide, rfl⟩

/-- C10: `DynSchema::new` performs no validation: it stores any declared
column list (even with duplicate names) and any primary index list (even out of
range) unchanged and always succeeds; consequently `primary_key_path` on a
constructible schema can reach its out-of-bounds branch (`none`, a panic in the
source), so that operation is not total over constructible schemas. -/
theorem dyn_schema_no_validation :
    (∀ (cols : List ValueDesc) (pidx : List Nat),
      (DynSchema.new cols pidx).schema = cols ∧
      (DynSchema.new cols pidx).primary_index = pidx) ∧
    ((DynSchema.new [⟨"dup", .int32, false⟩, ⟨"dup", .int32, false⟩] [0, 0]).schema =
      [⟨"dup", .int32, false⟩, ⟨"dup", .int32, false⟩]) ∧
    ((DynSchema.new [⟨"foo", .string, false⟩] [5]).primary_index = [5] ∧
      (DynSchema.new [⟨"foo", .string, false⟩] [5]).primary_key_path = none) := by
  exact ⟨fun cols pidx => ⟨rfl, rfl⟩, rfl, rfl, rfl⟩

end Tonbo
